import Mathlib

/-!
Verification development for the release-notes generator repository.

The repository has two Python scripts:
* `extract_webdev_merges.py` — filters VCS merge-commit summary lines by an
  issue-prefix pattern and writes them to a file;
* `release_notes.py` — parses those lines into a task registry
  (issue key → branch type), groups and renders a Markdown report.

Strings are modelled as `List Char`.  Python's `re` searches are embedded as
executable scans over the suffixes (`List.tails`) of the haystack, which
mirrors `re.search` trying every start position from the left.
-/

set_option maxRecDepth 4000

/-- The ASCII apostrophe, the quote character used by the merge-line patterns. -/
def squote : Char := Char.ofNat 39

/-- Lower-casing of a string, modelling Python's `str.lower()` on ASCII input
(and the effect of `re.IGNORECASE` when applied to both pattern and haystack). -/
def lowerStr (s : List Char) : List Char := s.map Char.toLower

/-- `containsSub needle hay` models Python's `needle in hay` substring test. -/
def containsSub (needle hay : List Char) : Bool :=
  hay.tails.any (fun t => needle.isPrefixOf t)

/-- Number of start positions at which `needle` occurs in `hay`
(used to state the spec's "contains ... more than once"). -/
def countOccur (needle hay : List Char) : Nat :=
  (hay.tails.filter (fun t => needle.isPrefixOf t)).length

/-! ## Merge Extractor (`extract_webdev_merges.py`) -/

/-- Lower-case form of the literal `"Merge branch "` (note the trailing space)
that `extract_lines` compiles when the prefix is empty. -/
def lowMB : List Char := "merge branch ".data

/-- Lower-case form of `"Merge branch '"`: the fixed leading part of the
prefix pattern `Merge branch '([^']*/{prefix}-[^']*)'`. -/
def header14 : List Char := lowMB ++ [squote]

/-- The middle literal `/<prefix>-` of the extractor's branch pattern. -/
def patMid (p : List Char) : List Char := '/' :: p ++ ['-']

/-- One attempt of the extractor's regex at a fixed start position `t`
(a suffix of the lower-cased line): the literal `merge branch '` must match,
then `[^']*/{p}-[^']*` followed by a closing quote must match the rest.
Because `[^']` forbids quotes, that is equivalent to: the rest contains a
quote, and the segment before the first quote contains `/<p>-`. -/
def atPos (p t : List Char) : Bool :=
  header14.isPrefixOf t &&
    ((t.drop header14.length).any (fun c => c == squote) &&
      containsSub (patMid p) ((t.drop header14.length).takeWhile (fun c => c ≠ squote)))

/-- `re.search` of the compiled prefix pattern (IGNORECASE) over a line:
try every start position from the left.  Both `p` and the line are passed
already lower-cased by the caller. -/
def matchPref (p l : List Char) : Bool := l.tails.any (atPos p)

/-- `extract_lines(lines, prefix)`: with a non-empty prefix, keep lines whose
message matches `Merge branch '([^']*/{prefix}-[^']*)'` case-insensitively;
with an empty (or absent) prefix, keep lines containing `Merge branch `
case-insensitively. -/
def extract_lines (lines : List (List Char)) (pfx : List Char) : List (List Char) :=
  if pfx.isEmpty then lines.filter (fun l => containsSub lowMB (lowerStr l))
  else lines.filter (fun l => matchPref (lowerStr pfx) (lowerStr l))

/-- `"\n".join(lines)` -/
def joinNL : List (List Char) → List Char
  | [] => []
  | [l] => l
  | l :: ls => l ++ '\n' :: joinNL ls

/-- `file.readlines()` applied to the written content: split after every
newline, keeping the newline at the end of each piece; a trailing piece is
produced only when non-empty. -/
def readlines : List Char → List (List Char)
  | [] => []
  | c :: cs =>
    if c = '\n' then ['\n'] :: readlines cs
    else
      match readlines cs with
      | [] => [[c]]
      | l :: ls => (c :: l) :: ls

/-- Every line but the last gains the newline terminator it was written with. -/
def appendNL : List (List Char) → List (List Char)
  | [] => []
  | [l] => [l]
  | l :: ls => (l ++ ['\n']) :: appendNL ls

/-- `output = args.output or 'merges.txt'` — `None` and the empty string both
fall back to the default name. -/
def resolveOutput (argsOutput : Option (List Char)) : List Char :=
  match argsOutput with
  | none => "merges.txt".data
  | some s => if s.isEmpty then "merges.txt".data else s

/-- The `if output:` test in `main` choosing between writing the file and the
print-only branch. -/
def persistsOutput (argsOutput : Option (List Char)) : Bool :=
  !(resolveOutput argsOutput).isEmpty

/-! ## Release Note Builder (`release_notes.py`) — parsing -/

/-- The branch classifier, a closed enumeration. -/
inductive BranchType
  | FEATURE
  | MOD
  | BUGFIX
  | OTHER
deriving DecidableEq, Repr

def featureAliases : List (List Char) := ["feature".data]
def modAliases : List (List Char) := ["mod".data, "modification".data, "refactor".data]
def bugfixAliases : List (List Char) :=
  ["bugfix".data, "bugfixes".data, "bug".data, "fix".data, "hotfix".data]

/-- `BranchType.classify_branch_type`: lower-case the type token and look it
up in the alias tuples; unrecognized tokens map to `OTHER`. -/
def classify_branch_type (p : List Char) : BranchType :=
  let q := lowerStr p
  if q ∈ featureAliases then .FEATURE
  else if q ∈ modAliases then .MOD
  else if q ∈ bugfixAliases then .BUGFIX
  else .OTHER

/-- The task registry `tasks`: a Python dict `base_key -> branch_type`
modelled as an insertion-ordered association list. -/
abbrev Registry := List (List Char × BranchType)

/-- `if base_key not in tasks: tasks[base_key] = branch_type` — first
classification wins, new keys are appended (dict insertion order). -/
def insertTask (tasks : Registry) (k : List Char) (t : BranchType) : Registry :=
  if tasks.any (fun p => p.1 == k) then tasks else tasks ++ [(k, t)]

/-- `line.strip()` -/
def stripPy (l : List Char) : List Char :=
  ((l.dropWhile Char.isWhitespace).reverse.dropWhile Char.isWhitespace).reverse

/-- Parsing step 1: skip blank lines and lines mentioning the integration
branch or remote-tracking metadata. -/
def skipLine (l : List Char) : Bool :=
  l.isEmpty || containsSub "refs/heads/develop".data l ||
    containsSub "remote-tracking".data l

/-- The case-sensitive literal `Merge branch '` used by the builder's
branch-extraction pattern `Merge branch '([^']+)'`. -/
def mbHeader : List Char := "Merge branch ".data ++ [squote]

/-- One attempt of `Merge branch '([^']+)'` at a fixed start position:
the quoted content is everything up to the first quote after the opening
one; it must be non-empty and a closing quote must exist. -/
def branchAt (t : List Char) : Option (List Char) :=
  if mbHeader.isPrefixOf t then
    let rest := t.drop mbHeader.length
    let b := rest.takeWhile (fun c => c ≠ squote)
    if b.isEmpty then none
    else if rest.any (fun c => c == squote) then some b else none
  else none

/-- Parsing step 2: `re.search(r"Merge branch '([^']+)'", line)` — the group
captured at the leftmost position where the pattern matches. -/
def findBranch (l : List Char) : Option (List Char) :=
  l.tails.findSome? branchAt

/-- Parsing step 6: `re.compile(fr'^({ISSUE_PREFIX}-\d+)').match(task_key)` —
anchored at the start of the task key, the literal prefix, a dash, then a
maximal non-empty run of digits. -/
def baseKeyMatch (ipfx tk : List Char) : Option (List Char) :=
  if (ipfx ++ ['-']).isPrefixOf tk then
    if ((tk.drop (ipfx.length + 1)).takeWhile Char.isDigit).isEmpty then none
    else some (ipfx ++ '-' :: (tk.drop (ipfx.length + 1)).takeWhile Char.isDigit)
  else none

/-- Parsing steps 4-7, applied once the branch name has been split at its
first `/` into a type token `bpref` and a task key `tk`. -/
def stepKey (ipfx : List Char) (tasks : Registry) (bpref tk : List Char) : Registry :=
  if (ipfx ++ ['-']).isPrefixOf tk then
    if containsSub ipfx (lowerStr tk) then tasks
    else
      match baseKeyMatch ipfx tk with
      | none => tasks
      | some bk => insertTask tasks bk (classify_branch_type bpref)
  else tasks

/-- Parsing step 3 onwards: skip branch names without `/`; otherwise
`full_branch.split('/', 1)` — the type token is everything before the first
slash, the task key everything after it. -/
def stepSlash (ipfx : List Char) (tasks : Registry) (fb : List Char) : Registry :=
  if fb.any (fun c => c == '/') then
    stepKey ipfx tasks (fb.takeWhile (fun c => c ≠ '/'))
      (fb.drop ((fb.takeWhile (fun c => c ≠ '/')).length + 1))
  else tasks

/-- One iteration of the builder's parse loop over one raw input line. -/
def parseLine (ipfx : List Char) (tasks : Registry) (rawLine : List Char) : Registry :=
  if skipLine (stripPy rawLine) then tasks
  else
    match findBranch (stripPy rawLine) with
    | none => tasks
    | some fb => stepSlash ipfx tasks fb

/-- The whole parse phase: fold the parse loop over the input lines starting
from the empty registry. -/
def parseFrom (ipfx : List Char) (tasks : Registry) (lines : List (List Char)) : Registry :=
  lines.foldl (parseLine ipfx) tasks

def parseTasks (ipfx : List Char) (lines : List (List Char)) : Registry :=
  parseFrom ipfx [] lines

/-- Association-list lookup, modelling `tasks[k]` / `k in tasks`. -/
def lookupTask (tasks : Registry) (k : List Char) : Option BranchType :=
  match tasks with
  | [] => none
  | (k', t) :: rest => if k' == k then some t else lookupTask rest k

/-! ## Release Note Builder — grouping and rendering -/

/-- `list_to_str(BranchType.X, quot=backtick)` interpolated into the group
headers of `make_group` (the `OTHER` header keeps the source's missing
closing parenthesis, its alias tuple being empty). -/
def hFeature : List Char := "Функциональность (`feature`)".data
def hMod : List Char := "Доработки / Модификации (`mod`,`modification`,`refactor`)".data
def hBugfix : List Char := "Багфиксы (`bugfix`,`bugfixes`,`bug`,`fix`,`hotfix`)".data
def hOther : List Char := "Прочее (".data

/-- The header string `make_group` files a key under, by its branch type. -/
def headerOf : BranchType → List Char
  | .FEATURE => hFeature
  | .MOD => hMod
  | .BUGFIX => hBugfix
  | .OTHER => hOther

/-- `jira_groups[header].append(k)` on an insertion-ordered association list:
append to an existing group, or create the group at the end (defaultdict). -/
def addToGroup (groups : List (List Char × List (List Char))) (h : List Char)
    (k : List Char) : List (List Char × List (List Char)) :=
  match groups with
  | [] => [(h, [k])]
  | (h', ks) :: rest =>
    if h' == h then (h', ks ++ [k]) :: rest else (h', ks) :: addToGroup rest h k

/-- `make_group(jira_tasks)`: iterate the registry in insertion order and
file every key under the header of its branch type. -/
def make_group (tasks : Registry) : List (List Char × List (List Char)) :=
  tasks.foldl (fun g p => addToGroup g (headerOf p.2) p.1) []

/-- The headers emitted by the rendering loop, in emission order: groups with
an empty key list are skipped (`if not keys: continue`). -/
def renderedGroupOrder (tasks : Registry) : List (List Char) :=
  ((make_group tasks).filter (fun p => !p.2.isEmpty)).map (fun p => p.1)

/-- `x.split('-')[1]` — Python raises `IndexError` unless the string has a
dash; otherwise the result is the segment between the first dash and the
second dash (or the end). -/
def pySplitSecond (x : List Char) : Option (List Char) :=
  if x.any (fun c => c == '-') then
    some (((x.dropWhile (fun c => c ≠ '-')).drop 1).takeWhile (fun c => c ≠ '-'))
  else none

/-- Decimal value of a digit string. -/
def digitsToNat (ds : List Char) : Nat :=
  ds.foldl (fun n c => n * 10 + (c.toNat - 48)) 0

/-- `int(s)` — succeeds only on a non-empty all-digit string. -/
def pyInt (s : List Char) : Option Nat :=
  if s.isEmpty then none
  else if s.all Char.isDigit then some (digitsToNat s) else none

/-- The numeric sort key `int(x.split('-')[1])` of `sorted_keys`, as a
partial function. -/
def numKeyOpt (x : List Char) : Option Nat := (pySplitSecond x).bind pyInt

/-- Total version of the sort key used by the executable sort below; the
invariant theorems show the fallback is never reached on registry keys. -/
def keyNum (x : List Char) : Nat := (numKeyOpt x).getD 0

/-- Stable insertion of a key into an already sorted list (insert after
equal sort keys, as Python's stable `sorted` keeps original order on ties). -/
def insertSorted (a : List Char) : List (List Char) → List (List Char)
  | [] => [a]
  | b :: bs => if keyNum a < keyNum b then a :: b :: bs else b :: insertSorted a bs

/-- `sorted(keys, key=lambda x: int(x.split('-')[1]))`. -/
def sortedKeys (keys : List (List Char)) : List (List Char) :=
  keys.foldr insertSorted []

/-! ## Release Note Builder — zero-issue early exit -/

/-- The observable effects of the builder after the parse phase, as decided
by the control flow of `release_notes.py` lines 128-223. -/
structure BuilderEffects where
  queriesTracker : Bool
  writesReleaseNotes : Bool
  exitCode : Nat
  earlyExitMessage : List Char
deriving DecidableEq, Repr

/-- `f"Нет корректных задач {ISSUE_PREFIX} для обработки."` -/
def infoMessage (ipfx : List Char) : List Char :=
  "Нет корректных задач ".data ++ ipfx ++ " для обработки.".data

/-- Builder control flow after parsing: with no base keys, print the
informational message and `exit()` (code 0) before any Jira access; with
keys, query the tracker once — on failure print the error and `exit(1)`
without writing, on success render and write `release_notes.md`. -/
def builderEffects (ipfx : List Char) (lines : List (List Char))
    (querySucceeds : Bool) : BuilderEffects :=
  if (parseTasks ipfx lines).isEmpty then
    ⟨false, false, 0, infoMessage ipfx⟩
  else if querySucceeds then ⟨true, true, 0, []⟩
  else ⟨true, false, 1, []⟩

/-! ## Spec-side definitions used by refinement statements -/

/-- Modelled from the spec's words for the Extractor's contract: a line
matches when, case-insensitively, it contains
`Merge branch '<anything>/<prefix>-<anything>'` with the two `<anything>`
parts free of quotes (they live inside the quoted branch name). -/
def specMatch (p l : List Char) : Prop :=
  ∃ u s t v, squote ∉ s ∧ squote ∉ t ∧
    lowerStr l = u ++ header14 ++ s ++ patMid (lowerStr p) ++ t ++ squote :: v

/-- First-occurrence-preserving deduplication (used to describe the order in
which `make_group` creates group headers). -/
def insertIfAbsent (l : List (List Char)) (x : List Char) : List (List Char) :=
  if x ∈ l then l else l ++ [x]

def firstDedup (l : List (List Char)) : List (List Char) :=
  l.foldl insertIfAbsent []


/-- Builds a concrete commit-summary line `pre` + `'` + `mid` + `'` (the
quotes around the branch name), used by the concrete test inputs below. -/
def mkLine (pre mid : String) : List Char :=
  pre.data ++ squote :: mid.data ++ [squote]

/-! ## Helper lemmas -/

theorem containsSub_iff (n h : List Char) :
    containsSub n h = true ↔ ∃ u v, h = u ++ n ++ v := by
  unfold containsSub
  rw [List.any_eq_true]
  constructor
  · rintro ⟨t, ht, hp⟩
    obtain ⟨u, hu⟩ := (List.mem_tails t h).mp ht
    obtain ⟨v, hv⟩ := List.isPrefixOf_iff_prefix.mp hp
    exact ⟨u, v, by rw [← hu, ← hv, List.append_assoc]⟩
  · rintro ⟨u, v, rfl⟩
    refine ⟨n ++ v, (List.mem_tails _ _).mpr ⟨u, by rw [List.append_assoc]⟩, ?_⟩
    exact List.isPrefixOf_iff_prefix.mpr (List.prefix_append n v)

theorem containsSub_of_append_right (n h t : List Char)
    (hc : containsSub n h = true) : containsSub n (h ++ t) = true := by
  obtain ⟨u, v, rfl⟩ := (containsSub_iff n h).mp hc
  exact (containsSub_iff n _).mpr ⟨u, v ++ t, by simp⟩

theorem takeWhile_append_char (q : Char) (a v : List Char) (ha : ∀ c ∈ a, c ≠ q) :
    (a ++ q :: v).takeWhile (fun c => c ≠ q) = a := by
  induction a with
  | nil => simp [List.takeWhile]
  | cons c a' ih =>
    have hc : c ≠ q := ha c (List.mem_cons_self c a')
    simp only [List.cons_append, List.takeWhile_cons]
    rw [if_pos]
    · rw [ih (fun x hx => ha x (List.mem_cons_of_mem c hx))]
    · simp [hc]

theorem dropWhile_append_char (q : Char) (a v : List Char) (ha : ∀ c ∈ a, c ≠ q) :
    (a ++ q :: v).dropWhile (fun c => c ≠ q) = q :: v := by
  induction a with
  | nil => simp [List.dropWhile]
  | cons c a' ih =>
    have hc : c ≠ q := ha c (List.mem_cons_self c a')
    simp only [List.cons_append, List.dropWhile_cons]
    rw [if_pos (by simp [hc])]
    exact ih (fun x hx => ha x (List.mem_cons_of_mem c hx))

theorem takeWhile_all (p : Char → Bool) (l : List Char) (h : ∀ c ∈ l, p c = true) :
    l.takeWhile p = l := by
  induction l with
  | nil => rfl
  | cons c cs ih =>
    rw [List.takeWhile_cons, if_pos (h c (List.mem_cons_self c cs))]
    rw [ih (fun x hx => h x (List.mem_cons_of_mem c hx))]

theorem exists_quote_split (r : List Char)
    (h : r.any (fun c => c == squote) = true) :
    ∃ v, r = r.takeWhile (fun c => c ≠ squote) ++ squote :: v := by
  induction r with
  | nil => simp at h
  | cons c r' ih =>
    by_cases hc : c = squote
    · subst hc
      exact ⟨r', by simp [List.takeWhile_cons]⟩
    · have h' : r'.any (fun c => c == squote) = true := by
        simp only [List.any_cons] at h
        rcases Bool.or_eq_true_iff.mp h with h1 | h1
        · exact absurd (by simpa using h1) hc
        · exact h1
      obtain ⟨v, hv⟩ := ih h'
      refine ⟨v, ?_⟩
      simp only [List.takeWhile_cons]
      rw [if_pos (by simp [hc])]
      rw [List.cons_append]
      exact congrArg (c :: ·) hv

theorem mem_takeWhile_ne_squote (x : Char) (l : List Char)
    (h : x ∈ l.takeWhile (fun c => c ≠ squote)) : x ≠ squote := by
  have := List.mem_takeWhile_imp h
  simpa using this

theorem patMid_squote_free (p : List Char) (hp : squote ∉ p) :
    ∀ c ∈ patMid p, c ≠ squote := by
  intro c hc
  unfold patMid at hc
  rcases List.mem_cons.mp hc with h | h
  · subst h; decide
  · rcases List.mem_append.mp h with h' | h'
    · exact fun he => hp (he ▸ h')
    · have : c = '-' := by simpa using h'
      subst this; decide

theorem matchPref_iff (p L : List Char) (hp : squote ∉ p) :
    matchPref p L = true ↔
      ∃ u s t v, squote ∉ s ∧ squote ∉ t ∧
        L = u ++ header14 ++ s ++ patMid p ++ t ++ squote :: v := by
  unfold matchPref
  rw [List.any_eq_true]
  constructor
  · rintro ⟨t0, ht0, hat⟩
    obtain ⟨u, hu⟩ := (List.mem_tails t0 L).mp ht0
    unfold atPos at hat
    rw [Bool.and_eq_true, Bool.and_eq_true] at hat
    obtain ⟨h1, hq, hcs⟩ := hat
    obtain ⟨r, hr⟩ := List.isPrefixOf_iff_prefix.mp h1
    have hdrop : t0.drop header14.length = r := by
      rw [← hr]; exact List.drop_left header14 r
    rw [hdrop] at hq hcs
    obtain ⟨v, hv⟩ := exists_quote_split r hq
    obtain ⟨s, t1, hb⟩ := (containsSub_iff _ _).mp hcs
    refine ⟨u, s, t1, v, ?_, ?_, ?_⟩
    · intro hmem
      exact mem_takeWhile_ne_squote squote _ (hb ▸ List.mem_append_left _ (List.mem_append_left _ hmem)) rfl
    · intro hmem
      exact mem_takeWhile_ne_squote squote _ (hb ▸ List.mem_append_right _ hmem) rfl
    · rw [← hu, ← hr, hv, hb]
      simp [List.append_assoc]
  · rintro ⟨u, s, t1, v, hs, ht1, hL⟩
    refine ⟨header14 ++ (s ++ patMid p ++ t1 ++ squote :: v), ?_, ?_⟩
    · refine (List.mem_tails _ _).mpr ⟨u, ?_⟩
      rw [hL]; simp [List.append_assoc]
    · unfold atPos
      rw [Bool.and_eq_true, Bool.and_eq_true]
      have hdrop : (header14 ++ (s ++ patMid p ++ t1 ++ squote :: v)).drop header14.length
          = s ++ patMid p ++ t1 ++ squote :: v := List.drop_left _ _
      have hfree : ∀ c ∈ s ++ patMid p ++ t1, c ≠ squote := by
        intro c hc
        rcases List.mem_append.mp hc with h' | h'
        · rcases List.mem_append.mp h' with h'' | h''
          · exact fun he => hs (he ▸ h'')
          · exact patMid_squote_free p hp c h''
        · exact fun he => ht1 (he ▸ h')
      refine ⟨List.isPrefixOf_iff_prefix.mpr (List.prefix_append _ _), ?_, ?_⟩
      · rw [hdrop]
        rw [List.any_eq_true]
        exact ⟨squote, by simp, by simp⟩
      · rw [hdrop]
        have : (s ++ patMid p ++ t1 ++ squote :: v).takeWhile (fun c => c ≠ squote)
            = s ++ patMid p ++ t1 := by
          have := takeWhile_append_char squote (s ++ patMid p ++ t1) v hfree
          simpa [List.append_assoc] using this
        rw [this]
        exact (containsSub_iff _ _).mpr ⟨s, t1, rfl⟩

theorem matchPref_contains_lowMB (p l : List Char) (h : matchPref p l = true) :
    containsSub lowMB l = true := by
  unfold matchPref at h
  rw [List.any_eq_true] at h
  obtain ⟨t0, ht0, hat⟩ := h
  obtain ⟨u, hu⟩ := (List.mem_tails t0 l).mp ht0
  unfold atPos at hat
  rw [Bool.and_eq_true, Bool.and_eq_true] at hat
  obtain ⟨r, hr⟩ := List.isPrefixOf_iff_prefix.mp hat.1
  refine (containsSub_iff _ _).mpr ⟨u, squote :: r, ?_⟩
  rw [← hu, ← hr]
  simp [header14, List.append_assoc]

theorem containsSub_ne_nil (n l : List Char) (hn : n ≠ [])
    (h : containsSub n l = true) : l ≠ [] := by
  obtain ⟨u, v, rfl⟩ := (containsSub_iff n l).mp h
  intro he
  rcases List.append_eq_nil.mp he with ⟨h1, h2⟩
  exact hn (List.append_eq_nil.mp h1).2

theorem lowerStr_append (a b : List Char) :
    lowerStr (a ++ b) = lowerStr a ++ lowerStr b := List.map_append _ a b

theorem readlines_no_nl (l : List Char) (h : ('\n' : Char) ∉ l) (hne : l ≠ []) :
    readlines l = [l] := by
  induction l with
  | nil => exact absurd rfl hne
  | cons c cs ih =>
    have hc : c ≠ '\n' := fun he => h (he ▸ List.mem_cons_self c cs)
    simp only [readlines]
    rw [if_neg hc]
    cases cs with
    | nil => rfl
    | cons d ds =>
      rw [ih (fun hx => h (List.mem_cons_of_mem c hx)) (by simp)]

theorem readlines_append (a rest : List Char) (h : ('\n' : Char) ∉ a) :
    readlines (a ++ '\n' :: rest) = (a ++ ['\n']) :: readlines rest := by
  induction a with
  | nil => simp [readlines]
  | cons c a' ih =>
    have hc : c ≠ '\n' := fun he => h (he ▸ List.mem_cons_self c a')
    rw [List.cons_append]
    simp only [readlines]
    rw [if_neg hc]
    rw [ih (fun hx => h (List.mem_cons_of_mem c hx))]
    rfl

theorem readlines_joinNL (out : List (List Char))
    (h : ∀ l ∈ out, ('\n' : Char) ∉ l ∧ l ≠ []) :
    readlines (joinNL out) = appendNL out := by
  induction out with
  | nil => rfl
  | cons l ls ih =>
    cases ls with
    | nil =>
      have hl := h l (by simp)
      show readlines (joinNL [l]) = appendNL [l]
      rw [show joinNL [l] = l from rfl, show appendNL [l] = [l] from rfl]
      exact readlines_no_nl l hl.1 hl.2
    | cons l2 ls2 =>
      rw [show joinNL (l :: l2 :: ls2) = l ++ '\n' :: joinNL (l2 :: ls2) from rfl]
      rw [readlines_append l _ (h l (by simp)).1]
      rw [ih (fun x hx => h x (List.mem_cons_of_mem l hx))]
      rfl

theorem mem_appendNL (out : List (List Char)) (x : List Char)
    (hx : x ∈ appendNL out) : x ∈ out ∨ ∃ l ∈ out, x = l ++ ['\n'] := by
  induction out with
  | nil => simp [appendNL] at hx
  | cons l ls ih =>
    cases ls with
    | nil =>
      simp only [appendNL] at hx
      rcases List.mem_cons.mp hx with h | h
      · exact Or.inl (h ▸ List.mem_cons_self l [])
      · simp at h
    | cons l2 ls2 =>
      rw [show appendNL (l :: l2 :: ls2) = (l ++ ['\n']) :: appendNL (l2 :: ls2) from rfl] at hx
      rcases List.mem_cons.mp hx with h | h
      · exact Or.inr ⟨l, List.mem_cons_self l _, h⟩
      · rcases ih h with h' | ⟨l', hl', he⟩
        · exact Or.inl (List.mem_cons_of_mem l h')
        · exact Or.inr ⟨l', List.mem_cons_of_mem l hl', he⟩

theorem extract_lines_mem (lines : List (List Char)) (pfx l : List Char)
    (h : l ∈ extract_lines lines pfx) :
    l ∈ lines ∧ containsSub lowMB (lowerStr l) = true := by
  unfold extract_lines at h
  by_cases hp : pfx.isEmpty
  · rw [if_pos hp] at h
    have := List.mem_filter.mp h
    exact ⟨this.1, this.2⟩
  · rw [if_neg hp] at h
    have := List.mem_filter.mp h
    exact ⟨this.1, matchPref_contains_lowMB _ _ this.2⟩

theorem parseLine_cases (ipfx : List Char) (tasks : Registry) (raw : List Char) :
    parseLine ipfx tasks raw = tasks ∨
      ∃ bk bt tk, baseKeyMatch ipfx tk = some bk ∧
        parseLine ipfx tasks raw = insertTask tasks bk bt := by
  unfold parseLine
  split
  · exact Or.inl rfl
  · split
    · exact Or.inl rfl
    · unfold stepSlash
      split
      · unfold stepKey
        split
        · split
          · exact Or.inl rfl
          · split
            · exact Or.inl rfl
            · rename_i bk heq
              exact Or.inr ⟨bk, _, _, heq, rfl⟩
        · exact Or.inl rfl
      · exact Or.inl rfl

theorem lookupTask_append_single (tasks : Registry) (k k' : List Char)
    (t' : BranchType) (hne : k' ≠ k) :
    lookupTask (tasks ++ [(k', t')]) k = lookupTask tasks k := by
  induction tasks with
  | nil =>
    simp only [List.nil_append, lookupTask]
    rw [if_neg (by simpa using hne)]
  | cons a rest ih =>
    obtain ⟨ak, at'⟩ := a
    simp only [List.cons_append, lookupTask]
    by_cases hak : ak = k
    · rw [if_pos (by simpa using hak), if_pos (by simpa using hak)]
    · rw [if_neg (by simpa using hak), if_neg (by simpa using hak)]
      exact ih

theorem lookupTask_any (tasks : Registry) (k : List Char)
    (h : lookupTask tasks k ≠ none) :
    tasks.any (fun p => p.1 == k) = true := by
  induction tasks with
  | nil => exact absurd rfl h
  | cons a rest ih =>
    obtain ⟨ak, at'⟩ := a
    simp only [lookupTask] at h
    rw [List.any_cons]
    by_cases hak : ak = k
    · simp [hak]
    · rw [if_neg (by simpa using hak)] at h
      simp only [ih h, Bool.or_true]

theorem lookupTask_insertTask (tasks : Registry) (k bk : List Char)
    (bt : BranchType) (h : lookupTask tasks k ≠ none) :
    lookupTask (insertTask tasks bk bt) k = lookupTask tasks k := by
  unfold insertTask
  by_cases ha : tasks.any (fun p => p.1 == bk) = true
  · rw [if_pos ha]
  · rw [if_neg ha]
    refine lookupTask_append_single tasks k bk bt ?_
    intro he
    exact ha (he ▸ lookupTask_any tasks k h)

theorem parseLine_preserves (ipfx : List Char) (tasks : Registry)
    (raw k : List Char) (h : lookupTask tasks k ≠ none) :
    lookupTask (parseLine ipfx tasks raw) k = lookupTask tasks k := by
  rcases parseLine_cases ipfx tasks raw with he | ⟨bk, bt, tk, _, he⟩
  · rw [he]
  · rw [he]
    exact lookupTask_insertTask tasks k bk bt h

theorem parseFrom_preserves (ipfx : List Char) (lines : List (List Char)) :
    ∀ (tasks : Registry) (k : List Char), lookupTask tasks k ≠ none →
      lookupTask (parseFrom ipfx tasks lines) k = lookupTask tasks k := by
  induction lines with
  | nil => intro tasks k _; rfl
  | cons l ls ih =>
    intro tasks k h
    have hstep := parseLine_preserves ipfx tasks l k h
    have : lookupTask (parseLine ipfx tasks l) k ≠ none := by
      rw [hstep]; exact h
    calc lookupTask (parseFrom ipfx tasks (l :: ls)) k
        = lookupTask (parseFrom ipfx (parseLine ipfx tasks l) ls) k := rfl
      _ = lookupTask (parseLine ipfx tasks l) k := ih _ k this
      _ = lookupTask tasks k := hstep

theorem baseKeyMatch_shape (ipfx tk bk : List Char)
    (h : baseKeyMatch ipfx tk = some bk) :
    ∃ ds, ds ≠ [] ∧ (∀ c ∈ ds, c.isDigit = true) ∧ bk = ipfx ++ '-' :: ds := by
  unfold baseKeyMatch at h
  split at h
  · split at h
    · exact absurd h (by simp)
    · rename_i hne
      refine ⟨(tk.drop (ipfx.length + 1)).takeWhile Char.isDigit, ?_, ?_, ?_⟩
      · simpa using hne
      · intro c hc
        exact List.mem_takeWhile_imp hc
      · exact (Option.some.injEq _ _ ▸ h).symm
  · exact absurd h (by simp)

theorem mem_insertTask (tasks : Registry) (bk : List Char) (bt : BranchType)
    (x : List Char × BranchType) (hx : x ∈ insertTask tasks bk bt) :
    x ∈ tasks ∨ x = (bk, bt) := by
  unfold insertTask at hx
  split at hx
  · exact Or.inl hx
  · rcases List.mem_append.mp hx with h | h
    · exact Or.inl h
    · exact Or.inr (by simpa using h)

theorem parseLine_mem (ipfx : List Char) (tasks : Registry) (raw : List Char)
    (x : List Char × BranchType) (hx : x ∈ parseLine ipfx tasks raw) :
    x ∈ tasks ∨ ∃ ds, ds ≠ [] ∧ (∀ c ∈ ds, c.isDigit = true) ∧
      x.1 = ipfx ++ '-' :: ds := by
  rcases parseLine_cases ipfx tasks raw with he | ⟨bk, bt, tk, hbk, he⟩
  · rw [he] at hx
    exact Or.inl hx
  · rw [he] at hx
    rcases mem_insertTask tasks bk bt x hx with h | h
    · exact Or.inl h
    · obtain ⟨ds, h1, h2, h3⟩ := baseKeyMatch_shape ipfx tk bk hbk
      exact Or.inr ⟨ds, h1, h2, by rw [h, h3]⟩

theorem parseFrom_mem (ipfx : List Char) (lines : List (List Char)) :
    ∀ (tasks : Registry) (x : List Char × BranchType),
      x ∈ parseFrom ipfx tasks lines →
      x ∈ tasks ∨ ∃ ds, ds ≠ [] ∧ (∀ c ∈ ds, c.isDigit = true) ∧
        x.1 = ipfx ++ '-' :: ds := by
  induction lines with
  | nil => intro tasks x hx; exact Or.inl hx
  | cons l ls ih =>
    intro tasks x hx
    rcases ih (parseLine ipfx tasks l) x hx with h | h
    · exact parseLine_mem ipfx tasks l x h
    · exact Or.inr h

theorem parseTasks_shape (ipfx : List Char) (lines : List (List Char))
    (x : List Char × BranchType) (hx : x ∈ parseTasks ipfx lines) :
    ∃ ds, ds ≠ [] ∧ (∀ c ∈ ds, c.isDigit = true) ∧ x.1 = ipfx ++ '-' :: ds := by
  rcases parseFrom_mem ipfx lines [] x hx with h | h
  · exact absurd h (by simp)
  · exact h

theorem addToGroup_fst (groups : List (List Char × List (List Char)))
    (h k : List Char) :
    (addToGroup groups h k).map (fun p => p.1)
      = insertIfAbsent (groups.map (fun p => p.1)) h := by
  induction groups with
  | nil => simp [addToGroup, insertIfAbsent]
  | cons g gs ih =>
    obtain ⟨h', ks⟩ := g
    by_cases he : h' = h
    · subst he
      simp only [addToGroup, beq_self_eq_true, if_true, List.map_cons, insertIfAbsent]
      rw [if_pos (List.mem_cons_self h' _)]
    · simp only [addToGroup]
      rw [if_neg (by simpa using he)]
      simp only [List.map_cons, ih, insertIfAbsent]
      by_cases hm : h ∈ gs.map (fun p => p.1)
      · rw [if_pos hm, if_pos (List.mem_cons_of_mem h' hm)]
      · rw [if_neg hm, if_neg ?hnm]
        · rfl
        · intro hc
          rcases List.mem_cons.mp hc with hc' | hc'
          · exact he hc'.symm
          · exact hm hc'

theorem addToGroup_nonempty (groups : List (List Char × List (List Char)))
    (h k : List Char) (hg : ∀ p ∈ groups, p.2 ≠ []) :
    ∀ p ∈ addToGroup groups h k, p.2 ≠ [] := by
  induction groups with
  | nil =>
    intro p hp
    simp only [addToGroup] at hp
    rcases List.mem_cons.mp hp with h' | h'
    · rw [h']; simp
    · simp at h'
  | cons g gs ih =>
    obtain ⟨h', ks⟩ := g
    intro p hp
    simp only [addToGroup] at hp
    split at hp
    · rcases List.mem_cons.mp hp with hc | hc
      · rw [hc]; simp
      · exact hg p (List.mem_cons_of_mem _ hc)
    · rcases List.mem_cons.mp hp with hc | hc
      · rw [hc]
        exact hg (h', ks) (List.mem_cons_self _ _)
      · exact ih (fun q hq => hg q (List.mem_cons_of_mem _ hq)) p hc

theorem foldl_group_fst (tasks : Registry) :
    ∀ g : List (List Char × List (List Char)),
      ((tasks.foldl (fun g p => addToGroup g (headerOf p.2) p.1) g).map
        (fun p => p.1))
      = (tasks.map (fun p => headerOf p.2)).foldl insertIfAbsent
          (g.map (fun p => p.1)) := by
  induction tasks with
  | nil => intro g; rfl
  | cons t ts ih =>
    intro g
    rw [List.foldl_cons, List.map_cons, List.foldl_cons, ih, addToGroup_fst]

theorem make_group_nonempty (tasks : Registry) :
    ∀ p ∈ make_group tasks, p.2 ≠ [] := by
  have key : ∀ (ts : Registry) (g : List (List Char × List (List Char))),
      (∀ p ∈ g, p.2 ≠ []) →
      ∀ p ∈ ts.foldl (fun g p => addToGroup g (headerOf p.2) p.1) g, p.2 ≠ [] := by
    intro ts
    induction ts with
    | nil => intro g hg; exact hg
    | cons t ts' ih =>
      intro g hg
      rw [List.foldl_cons]
      exact ih _ (addToGroup_nonempty g (headerOf t.2) t.1 hg)
  exact key tasks [] (by simp)

theorem extract_lines_nil_pfx (lines : List (List Char)) :
    extract_lines lines [] = lines.filter (fun l => containsSub lowMB (lowerStr l)) := rfl

theorem numKeyOpt_shape (ipfx ds : List Char) (hda : ('-' : Char) ∉ ipfx)
    (hne : ds ≠ []) (hd : ∀ c ∈ ds, c.isDigit = true) :
    numKeyOpt (ipfx ++ '-' :: ds) = some (digitsToNat ds) := by
  have hifx : ∀ c ∈ ipfx, c ≠ '-' := fun c hc he => hda (he ▸ hc)
  have hds : ∀ c ∈ ds, c ≠ '-' := by
    intro c hc he
    have := hd c hc
    rw [he] at this
    exact absurd this (by decide)
  unfold numKeyOpt pySplitSecond
  rw [if_pos ?hany]
  case hany =>
    rw [List.any_eq_true]
    exact ⟨'-', List.mem_append_right _ (List.mem_cons_self _ _), by simp⟩
  rw [dropWhile_append_char '-' ipfx ds hifx]
  rw [show ('-' :: ds).drop 1 = ds from rfl]
  rw [takeWhile_all _ ds (fun c hc => by simpa using hds c hc)]
  show pyInt ds = some (digitsToNat ds)
  unfold pyInt
  rw [if_neg (by simpa using hne), if_pos (List.all_eq_true.mpr hd)]

/-! ## Claim C1 -/

/-- C1, counterexample: the claim says a line whose branch splits into a
type token and a task key starting with the issue prefix and a dash is
skipped iff the lowercase task key contains the prefix more than once.
With issue prefix "abc" the branch `feature/abc-1` satisfies the claim's
guard, its lowered task key "abc-1" contains "abc" exactly once (not more
than once), yet the code records no registry entry — line 114 of
release_notes.py skips on at least one occurrence, not more than one. -/
theorem claim1_counterexample :
    parseTasks "abc".data [mkLine "x Merge branch " "feature/abc-1"] = [] ∧
    countOccur "abc".data (lowerStr "abc-1".data) = 1 ∧
    findBranch (stripPy (mkLine "x Merge branch " "feature/abc-1"))
      = some "feature/abc-1".data ∧
    ("abc".data ++ ['-']).isPrefixOf "abc-1".data = true := by
  refine ⟨?_, ?_, ?_, ?_⟩ <;> decide

/-- C1, amended: for every input line that reaches parsing step 5 (it is
not skipped by step 1, its quoted branch name is found, contains a slash,
and the task key after the first slash starts with `<issue-prefix>-`),
the line is skipped — the registry is unchanged — if and only if the
issue prefix occurs at least once as a substring of the lowercase form of
the task key; otherwise parsing proceeds to the base-key extraction of
step 6. -/
theorem claim1_amended (ipfx : List Char) (tasks : Registry) (raw fb tk : List Char)
    (h1 : skipLine (stripPy raw) = false)
    (h2 : findBranch (stripPy raw) = some fb)
    (h3 : fb.any (fun c => c == '/') = true)
    (htk : tk = fb.drop ((fb.takeWhile (fun c => c ≠ '/')).length + 1))
    (h4 : (ipfx ++ ['-']).isPrefixOf tk = true) :
    (containsSub ipfx (lowerStr tk) = true → parseLine ipfx tasks raw = tasks) ∧
    (containsSub ipfx (lowerStr tk) = false →
      parseLine ipfx tasks raw =
        match baseKeyMatch ipfx tk with
        | none => tasks
        | some bk =>
          insertTask tasks bk
            (classify_branch_type (fb.takeWhile (fun c => c ≠ '/')))) := by
  have hline : parseLine ipfx tasks raw = stepSlash ipfx tasks fb := by
    unfold parseLine
    rw [h1, if_neg (by simp), h2]
  rw [hline]
  unfold stepSlash
  rw [if_pos h3, ← htk]
  unfold stepKey
  rw [if_pos h4]
  constructor
  · intro hc
    rw [if_pos hc]
  · intro hc
    rw [if_neg (by simp [hc])]

/-- C1, witness: the amended statement instantiated at issue prefix
"WEBDEV" and the line `x Merge branch 'feature/WEBDEV-7'`. -/
theorem claim1_witness :
    skipLine (stripPy (mkLine "x Merge branch " "feature/WEBDEV-7")) = false ∧
    findBranch (stripPy (mkLine "x Merge branch " "feature/WEBDEV-7"))
      = some "feature/WEBDEV-7".data ∧
    ("feature/WEBDEV-7".data.any (fun c => c == '/')) = true ∧
    (("WEBDEV".data ++ ['-']).isPrefixOf "WEBDEV-7".data = true) ∧
    ((containsSub "WEBDEV".data (lowerStr "WEBDEV-7".data) = true →
        parseLine "WEBDEV".data [] (mkLine "x Merge branch " "feature/WEBDEV-7") = []) ∧
      (containsSub "WEBDEV".data (lowerStr "WEBDEV-7".data) = false →
        parseLine "WEBDEV".data [] (mkLine "x Merge branch " "feature/WEBDEV-7") =
          match baseKeyMatch "WEBDEV".data "WEBDEV-7".data with
          | none => []
          | some bk =>
            insertTask [] bk
              (classify_branch_type
                ("feature/WEBDEV-7".data.takeWhile (fun c => c ≠ '/'))))) :=
  ⟨by decide, by decide, by decide, by decide,
    claim1_amended "WEBDEV".data [] (mkLine "x Merge branch " "feature/WEBDEV-7")
      "feature/WEBDEV-7".data "WEBDEV-7".data
      (by decide) (by decide) (by decide) (by decide) (by decide)⟩

/-! ## Claim C2 -/

/-- C2, counterexample: the claim says the non-empty groups are rendered
in the fixed definition order (Feature, then Mod, then Bugfix, then Other)
for every registry.  Parsing a bugfix line before a feature line makes the
Bugfix header come first: the groups are emitted in first-occurrence
order, not definition order. -/
theorem claim2_counterexample :
    renderedGroupOrder (parseTasks "WEBDEV".data
        [mkLine "a1b2c3d Merge branch " "bugfix/WEBDEV-2",
         mkLine "e4f5a6b Merge branch " "feature/WEBDEV-1"])
      = [hBugfix, hFeature] ∧ hBugfix ≠ hFeature := by
  constructor <;> decide

/-- C2, amended: in the output document the non-empty groups appear in the
order in which each classification first occurs in the task registry
(Python dict iteration order), i.e. the rendered header sequence is the
first-occurrence deduplication of the per-key header sequence — not the
fixed group-definition order. -/
theorem claim2_amended (tasks : Registry) :
    renderedGroupOrder tasks = firstDedup (tasks.map (fun p => headerOf p.2)) := by
  unfold renderedGroupOrder
  rw [List.filter_eq_self.mpr ?hall]
  case hall =>
    intro p hp
    simpa using make_group_nonempty tasks p hp
  unfold make_group firstDedup
  exact foldl_group_fst tasks []

/-! ## Claim C3 -/

/-- C3, counterexample: the claim says a quoted branch name with more than
one slash is skipped.  The branch `feature/WEBDEV-1/x` has two slashes,
yet the code splits at the first slash only (`split('/', 1)`), the task
key "WEBDEV-1/x" passes the later steps, and base key WEBDEV-1 is
recorded. -/
theorem claim3_counterexample :
    parseTasks "WEBDEV".data
        [mkLine "a1b2c3d Merge branch " "feature/WEBDEV-1/x"]
      = [("WEBDEV-1".data, BranchType.FEATURE)] ∧
    ("feature/WEBDEV-1/x".data.countP (fun c => c == '/')) = 2 := by
  constructor <;> decide

/-- C3, amended: a merge line whose quoted branch name contains no slash
is skipped; every branch name containing at least one slash (one or more)
proceeds, split at the first slash — the type token is the part before
it, the task key the whole remainder, slashes included. -/
theorem claim3_amended (ipfx : List Char) (tasks : Registry) (raw fb : List Char)
    (h1 : skipLine (stripPy raw) = false)
    (h2 : findBranch (stripPy raw) = some fb) :
    parseLine ipfx tasks raw =
      if fb.any (fun c => c == '/') then
        stepKey ipfx tasks (fb.takeWhile (fun c => c ≠ '/'))
          (fb.drop ((fb.takeWhile (fun c => c ≠ '/')).length + 1))
      else tasks := by
  unfold parseLine
  rw [h1, if_neg (by simp), h2]
  rfl

/-- C3, witness: the amended statement instantiated at the line
`x Merge branch 'feature/WEBDEV-1/x'`. -/
theorem claim3_witness :
    skipLine (stripPy (mkLine "x Merge branch " "feature/WEBDEV-1/x")) = false ∧
    findBranch (stripPy (mkLine "x Merge branch " "feature/WEBDEV-1/x"))
      = some "feature/WEBDEV-1/x".data ∧
    parseLine "WEBDEV".data [] (mkLine "x Merge branch " "feature/WEBDEV-1/x") =
      (if "feature/WEBDEV-1/x".data.any (fun c => c == '/') then
        stepKey "WEBDEV".data []
          ("feature/WEBDEV-1/x".data.takeWhile (fun c => c ≠ '/'))
          ("feature/WEBDEV-1/x".data.drop
            (("feature/WEBDEV-1/x".data.takeWhile (fun c => c ≠ '/')).length + 1))
      else []) :=
  ⟨by decide, by decide,
    claim3_amended "WEBDEV".data [] (mkLine "x Merge branch " "feature/WEBDEV-1/x")
      "feature/WEBDEV-1/x".data (by decide) (by decide)⟩

/-! ## Claim C4 -/

/-- C4, counterexample: the claim says that with an empty prefix a line is
included exactly when it contains the substring "Merge branch".  The
compiled pattern is "Merge branch " with a trailing space, applied
case-insensitively: the line "Merge branch" (nothing after the substring)
is excluded, while "merge branch 'x'" — which does not contain the
case-sensitive substring "Merge branch" — is included. -/
theorem claim4_counterexample :
    extract_lines ["Merge branch".data] [] = [] ∧
    extract_lines [mkLine "merge branch " "x"] [] = [mkLine "merge branch " "x"] ∧
    containsSub "Merge branch".data (mkLine "merge branch " "x") = false := by
  refine ⟨?_, ?_, ?_⟩ <;> decide

/-- C4, amended: with an empty prefix, a line is included in the output
exactly when it contains the substring "Merge branch " — trailing space
included — compared case-insensitively. -/
theorem claim4_amended (lines : List (List Char)) (l : List Char) :
    l ∈ extract_lines lines [] ↔
      l ∈ lines ∧ containsSub lowMB (lowerStr l) = true := by
  rw [extract_lines_nil_pfx]
  exact List.mem_filter

/-- C4, witness: the amended statement instantiated at a one-line input. -/
theorem claim4_witness :
    mkLine "merge branch " "x" ∈ extract_lines [mkLine "merge branch " "x"] [] ↔
      mkLine "merge branch " "x" ∈ [mkLine "merge branch " "x"] ∧
        containsSub lowMB (lowerStr (mkLine "merge branch " "x")) = true :=
  claim4_amended [mkLine "merge branch " "x"] (mkLine "merge branch " "x")

/-! ## Claim C5 -/

/-- C5, counterexample: the claim says writing the filtered lines
(newline-joined) and re-reading them via readlines with prefix filtering
disabled yields a set identical to the original filtered set.  But
readlines keeps the newline terminators, so every line except the last
comes back with a trailing newline and is not an element of the original
set. -/
theorem claim5_counterexample :
    (mkLine "a1b2c3d Merge branch " "feature/WEBDEV-1" ++ ['\n'])
      ∈ extract_lines (readlines (joinNL (extract_lines
          [mkLine "a1b2c3d Merge branch " "feature/WEBDEV-1",
           mkLine "e4f5a6b Merge branch " "feature/WEBDEV-2"] "WEBDEV".data))) [] ∧
    (mkLine "a1b2c3d Merge branch " "feature/WEBDEV-1" ++ ['\n'])
      ∉ extract_lines
          [mkLine "a1b2c3d Merge branch " "feature/WEBDEV-1",
           mkLine "e4f5a6b Merge branch " "feature/WEBDEV-2"] "WEBDEV".data := by
  constructor <;> decide

/-- C5, amended: for newline-free input lines, writing the Extractor's
filtered output newline-joined and re-reading it via readlines with an
empty prefix returns exactly the filtered lines, each except the last
carrying a trailing newline (so the round-trip is the identity only after
stripping the re-introduced terminators). -/
theorem claim5_amended (lines : List (List Char)) (pfx : List Char)
    (hnl : ∀ l ∈ lines, ('\n' : Char) ∉ l) :
    extract_lines (readlines (joinNL (extract_lines lines pfx))) []
      = appendNL (extract_lines lines pfx) := by
  have hmem : ∀ l ∈ extract_lines lines pfx,
      l ∈ lines ∧ containsSub lowMB (lowerStr l) = true :=
    fun l hl => extract_lines_mem lines pfx l hl
  have hprops : ∀ l ∈ extract_lines lines pfx, ('\n' : Char) ∉ l ∧ l ≠ [] := by
    intro l hl
    obtain ⟨hin, hsub⟩ := hmem l hl
    refine ⟨hnl l hin, ?_⟩
    intro he
    exact containsSub_ne_nil lowMB (lowerStr l) (by decide) hsub (by rw [he]; rfl)
  rw [readlines_joinNL _ hprops, extract_lines_nil_pfx]
  apply List.filter_eq_self.mpr
  intro x hx
  rcases mem_appendNL _ x hx with h | ⟨l, hl, he⟩
  · exact (hmem x h).2
  · rw [he, lowerStr_append]
    exact containsSub_of_append_right _ _ _ (hmem l hl).2

/-- C5, witness: the amended statement instantiated at a two-line input
with prefix "WEBDEV". -/
theorem claim5_witness :
    (∀ l ∈ [mkLine "a1b2c3d Merge branch " "feature/WEBDEV-1",
            mkLine "e4f5a6b Merge branch " "feature/WEBDEV-2"],
        ('\n' : Char) ∉ l) ∧
    extract_lines (readlines (joinNL (extract_lines
        [mkLine "a1b2c3d Merge branch " "feature/WEBDEV-1",
         mkLine "e4f5a6b Merge branch " "feature/WEBDEV-2"] "WEBDEV".data))) []
      = appendNL (extract_lines
          [mkLine "a1b2c3d Merge branch " "feature/WEBDEV-1",
           mkLine "e4f5a6b Merge branch " "feature/WEBDEV-2"] "WEBDEV".data) :=
  ⟨by decide,
    claim5_amended
      [mkLine "a1b2c3d Merge branch " "feature/WEBDEV-1",
       mkLine "e4f5a6b Merge branch " "feature/WEBDEV-2"]
      "WEBDEV".data (by decide)⟩

/-! ## Claim C6 -/

/-- C6: with a non-empty prefix P (quote-free once lowered), the
Extractor's output is exactly the ordered subsequence — a filter — of the
input lines matching the case-insensitive pattern
Merge branch '<anything>/<P>-<anything>' (the two wildcard parts free of
quotes, and the match characterized by specMatch); concretely, with
P = WEBDEV a line containing Merge branch 'feature/WEBDEV-123' is
included and a line containing Merge branch 'feature/TASK-123' is
excluded. -/
theorem claim6 (p : List Char) (lines : List (List Char)) (l : List Char)
    (hp : p ≠ []) (hq : squote ∉ lowerStr p) :
    extract_lines lines p
        = lines.filter (fun x => matchPref (lowerStr p) (lowerStr x)) ∧
    (extract_lines lines p).Sublist lines ∧
    (matchPref (lowerStr p) (lowerStr l) = true ↔ specMatch p l) ∧
    extract_lines [mkLine "a1b2c3d Merge branch " "feature/WEBDEV-123"]
        "WEBDEV".data
      = [mkLine "a1b2c3d Merge branch " "feature/WEBDEV-123"] ∧
    extract_lines [mkLine "a1b2c3d Merge branch " "feature/TASK-123"]
        "WEBDEV".data
      = [] := by
  have h1 : extract_lines lines p
      = lines.filter (fun x => matchPref (lowerStr p) (lowerStr x)) := by
    unfold extract_lines
    rcases p with _ | ⟨c, cs⟩
    · exact absurd rfl hp
    · rw [if_neg (by simp)]
  refine ⟨h1, ?_, ?_, by decide, by decide⟩
  · rw [h1]
    exact List.filter_sublist lines
  · exact matchPref_iff (lowerStr p) (lowerStr l) hq

/-- C6, witness: the statement instantiated at P = WEBDEV and a two-line
input. -/
theorem claim6_witness :
    ("WEBDEV".data ≠ []) ∧ (squote ∉ lowerStr "WEBDEV".data) ∧
    (extract_lines
          [mkLine "a1b2c3d Merge branch " "feature/WEBDEV-123",
           mkLine "e4f5a6b Merge branch " "feature/TASK-123"] "WEBDEV".data
        = [mkLine "a1b2c3d Merge branch " "feature/WEBDEV-123",
           mkLine "e4f5a6b Merge branch " "feature/TASK-123"].filter
            (fun x => matchPref (lowerStr "WEBDEV".data) (lowerStr x)) ∧
      (extract_lines
          [mkLine "a1b2c3d Merge branch " "feature/WEBDEV-123",
           mkLine "e4f5a6b Merge branch " "feature/TASK-123"]
          "WEBDEV".data).Sublist
        [mkLine "a1b2c3d Merge branch " "feature/WEBDEV-123",
         mkLine "e4f5a6b Merge branch " "feature/TASK-123"] ∧
      (matchPref (lowerStr "WEBDEV".data)
          (lowerStr (mkLine "a1b2c3d Merge branch " "feature/WEBDEV-123")) = true ↔
        specMatch "WEBDEV".data
          (mkLine "a1b2c3d Merge branch " "feature/WEBDEV-123")) ∧
      extract_lines [mkLine "a1b2c3d Merge branch " "feature/WEBDEV-123"]
          "WEBDEV".data
        = [mkLine "a1b2c3d Merge branch " "feature/WEBDEV-123"] ∧
      extract_lines [mkLine "a1b2c3d Merge branch " "feature/TASK-123"]
          "WEBDEV".data
        = []) :=
  ⟨by decide, by decide,
    claim6 "WEBDEV".data
      [mkLine "a1b2c3d Merge branch " "feature/WEBDEV-123",
       mkLine "e4f5a6b Merge branch " "feature/TASK-123"]
      (mkLine "a1b2c3d Merge branch " "feature/WEBDEV-123")
      (by decide) (by decide)⟩

/-! ## Claim C7 -/

/-- C7: branch bugfix/WEBDEV-42 records base key WEBDEV-42 as BUGFIX;
feature/WEBDEV-42-v2 extracts the same base key WEBDEV-42 (the -v2 suffix
discarded by the anchored match); a later line resolving to an
already-recorded key leaves the recorded classifier unchanged — in
general the whole remaining parse leaves the binding of any
already-recorded key untouched (first classification wins). -/
theorem claim7 (ipfx : List Char) (lines : List (List Char)) (tasks : Registry)
    (k : List Char) (h : lookupTask tasks k ≠ none) :
    parseTasks "WEBDEV".data [mkLine "a1b2c3d Merge branch " "bugfix/WEBDEV-42"]
        = [("WEBDEV-42".data, BranchType.BUGFIX)] ∧
    parseTasks "WEBDEV".data
        [mkLine "a1b2c3d Merge branch " "feature/WEBDEV-42-v2"]
        = [("WEBDEV-42".data, BranchType.FEATURE)] ∧
    parseTasks "WEBDEV".data
        [mkLine "a1b2c3d Merge branch " "bugfix/WEBDEV-42",
         mkLine "e4f5a6b Merge branch " "feature/WEBDEV-42"]
        = [("WEBDEV-42".data, BranchType.BUGFIX)] ∧
    lookupTask (parseFrom ipfx tasks lines) k = lookupTask tasks k :=
  ⟨by decide, by decide, by decide, parseFrom_preserves ipfx lines tasks k h⟩

/-- C7, witness: the first-wins clause instantiated at a registry already
holding WEBDEV-42 as BUGFIX and a later feature line for the same key. -/
theorem claim7_witness :
    (lookupTask [("WEBDEV-42".data, BranchType.BUGFIX)] "WEBDEV-42".data
        ≠ none) ∧
    (parseTasks "WEBDEV".data [mkLine "a1b2c3d Merge branch " "bugfix/WEBDEV-42"]
        = [("WEBDEV-42".data, BranchType.BUGFIX)] ∧
      parseTasks "WEBDEV".data
          [mkLine "a1b2c3d Merge branch " "feature/WEBDEV-42-v2"]
          = [("WEBDEV-42".data, BranchType.FEATURE)] ∧
      parseTasks "WEBDEV".data
          [mkLine "a1b2c3d Merge branch " "bugfix/WEBDEV-42",
           mkLine "e4f5a6b Merge branch " "feature/WEBDEV-42"]
          = [("WEBDEV-42".data, BranchType.BUGFIX)] ∧
      lookupTask
          (parseFrom "WEBDEV".data [("WEBDEV-42".data, BranchType.BUGFIX)]
            [mkLine "e4f5a6b Merge branch " "feature/WEBDEV-42"])
          "WEBDEV-42".data
        = lookupTask [("WEBDEV-42".data, BranchType.BUGFIX)] "WEBDEV-42".data) :=
  ⟨by decide,
    claim7 "WEBDEV".data [mkLine "e4f5a6b Merge branch " "feature/WEBDEV-42"]
      [("WEBDEV-42".data, BranchType.BUGFIX)] "WEBDEV-42".data (by decide)⟩

/-! ## Claim C8 -/

/-- C8: the group WEBDEV-100, WEBDEV-2, WEBDEV-30 renders sorted as
WEBDEV-2, WEBDEV-30, WEBDEV-100 (ascending by the integer after the
prefix dash); and for a dash-free issue prefix, every key in the parsed
registry has the shape prefix-digits guaranteed by the extraction regex,
so the numeric sort key int(x.split('-')[1]) is always extractable. -/
theorem claim8 (ipfx : List Char) (lines : List (List Char))
    (k : List Char) (bt : BranchType)
    (hmem : (k, bt) ∈ parseTasks ipfx lines)
    (hda : ('-' : Char) ∉ ipfx) :
    sortedKeys ["WEBDEV-100".data, "WEBDEV-2".data, "WEBDEV-30".data]
        = ["WEBDEV-2".data, "WEBDEV-30".data, "WEBDEV-100".data] ∧
    ∃ ds, ds ≠ [] ∧ (∀ c ∈ ds, c.isDigit = true) ∧ k = ipfx ++ '-' :: ds ∧
      numKeyOpt k = some (digitsToNat ds) := by
  refine ⟨by decide, ?_⟩
  obtain ⟨ds, hne, hdig, hkey⟩ := parseTasks_shape ipfx lines (k, bt) hmem
  have hkey' : k = ipfx ++ '-' :: ds := hkey
  refine ⟨ds, hne, hdig, hkey', ?_⟩
  rw [hkey']
  exact numKeyOpt_shape ipfx ds hda hne hdig

/-- C8, witness: instantiated at prefix WEBDEV and the registry parsed
from one bugfix line. -/
theorem claim8_witness :
    (("WEBDEV-42".data, BranchType.BUGFIX)
        ∈ parseTasks "WEBDEV".data
            [mkLine "a1b2c3d Merge branch " "bugfix/WEBDEV-42"]) ∧
    (('-' : Char) ∉ "WEBDEV".data) ∧
    (sortedKeys ["WEBDEV-100".data, "WEBDEV-2".data, "WEBDEV-30".data]
        = ["WEBDEV-2".data, "WEBDEV-30".data, "WEBDEV-100".data] ∧
      ∃ ds, ds ≠ [] ∧ (∀ c ∈ ds, c.isDigit = true) ∧
        "WEBDEV-42".data = "WEBDEV".data ++ '-' :: ds ∧
        numKeyOpt "WEBDEV-42".data = some (digitsToNat ds)) :=
  ⟨by decide, by decide,
    claim8 "WEBDEV".data [mkLine "a1b2c3d Merge branch " "bugfix/WEBDEV-42"]
      "WEBDEV-42".data BranchType.BUGFIX (by decide) (by decide)⟩

/-! ## Claim C9 -/

/-- C9: when the parse phase records no base keys, the builder performs no
tracker query, writes no release_notes.md, exits with status zero and
carries the informational message interpolated with the issue prefix. -/
theorem claim9 (ipfx : List Char) (lines : List (List Char)) (q : Bool)
    (h : parseTasks ipfx lines = []) :
    builderEffects ipfx lines q
      = ⟨false, false, 0, infoMessage ipfx⟩ := by
  unfold builderEffects
  rw [h]
  rfl

/-- C9, witness: the zero-issue run on an empty input with prefix
WEBDEV. -/
theorem claim9_witness :
    (parseTasks "WEBDEV".data [] = []) ∧
    builderEffects "WEBDEV".data [] true
      = ⟨false, false, 0, infoMessage "WEBDEV".data⟩ :=
  ⟨by decide, claim9 "WEBDEV".data [] true (by decide)⟩

/-! ## Claim C10 -/

/-- C10: the resolved output path is never empty — a missing --output and
an empty-string --output both fall back to merges.txt — so the write
branch is always taken and the print-only no-persist branch is
unreachable. -/
theorem claim10 (argsOutput : Option (List Char)) :
    resolveOutput argsOutput ≠ [] ∧ persistsOutput argsOutput = true ∧
    resolveOutput (some []) = "merges.txt".data ∧
    resolveOutput none = "merges.txt".data := by
  have hne : resolveOutput argsOutput ≠ [] := by
    cases argsOutput with
    | none => decide
    | some s =>
      show (if s.isEmpty = true then "merges.txt".data else s) ≠ []
      by_cases hs : s.isEmpty = true
      · rw [if_pos hs]; decide
      · rw [if_neg hs]
        intro he
        rw [he] at hs
        exact hs rfl
  refine ⟨hne, ?_, by decide, by decide⟩
  unfold persistsOutput
  obtain ⟨c, cs, hcc⟩ := List.exists_cons_of_ne_nil hne
  rw [hcc]
  rfl
